import Mathlib

set_option maxHeartbeats 1000000

namespace DupDirFinder

/-! Shallow embedding of `src/main.rs` of dupdirfinder.

Fingerprints (`FileHash` in the source) are Blake2b digests.  We model the
digest as injective on its input: `ofBytes` stands for the digest of a raw
byte string (a file's name concatenated with its little-endian size, as fed
by `hash_file_metadata`), `ofHashes` for the digest of the concatenation of
fixed-width child hashes (as fed by `DirectoryData::hash`).  This is the
usual collision-free abstraction of a cryptographic hash. -/

inductive FileHash : Type where
  | ofBytes (bytes : List Nat) : FileHash
  | ofHashes (hashes : List FileHash) : FileHash

mutual

def FileHash.decEq : (a b : FileHash) → Decidable (a = b)
  | .ofBytes x, .ofBytes y =>
      if h : x = y then .isTrue (by rw [h]) else
        .isFalse (fun hh => by cases hh; exact h rfl)
  | .ofBytes _, .ofHashes _ => .isFalse (fun hh => by cases hh)
  | .ofHashes _, .ofBytes _ => .isFalse (fun hh => by cases hh)
  | .ofHashes xs, .ofHashes ys =>
      match FileHash.decEqList xs ys with
      | .isTrue h => .isTrue (by rw [h])
      | .isFalse h => .isFalse (fun hh => by cases hh; exact h rfl)
termination_by a => sizeOf a

def FileHash.decEqList : (a b : List FileHash) → Decidable (a = b)
  | [], [] => .isTrue rfl
  | [], _ :: _ => .isFalse (fun hh => by cases hh)
  | _ :: _, [] => .isFalse (fun hh => by cases hh)
  | x :: xs, y :: ys =>
      match FileHash.decEq x y, FileHash.decEqList xs ys with
      | .isTrue h1, .isTrue h2 => .isTrue (by rw [h1, h2])
      | .isFalse h1, _ => .isFalse (fun hh => by cases hh; exact h1 rfl)
      | _, .isFalse h2 => .isFalse (fun hh => by cases hh; exact h2 rfl)
termination_by a => sizeOf a

end

instance : DecidableEq FileHash := FileHash.decEq

/-- `struct DirectoryData` of the source.  Paths are modelled as lists of
path components, each component a list of name bytes. -/
structure DirectoryData where
  path : List (List Nat)
  children_hashes : List FileHash
  descendant_number : Nat
  disk_size : Nat
deriving DecidableEq

/-- `DirectoryData::hash`: digest of the concatenation of the children
hashes. -/
def DirectoryData.hash (d : DirectoryData) : FileHash :=
  FileHash.ofHashes d.children_hashes

/-- What the walker can see below one directory.  An entry of a directory
listing is `none` when the iterator yields `Err(e)` (the entry failed to
enumerate), otherwise a file (with its base name, `none` when the path has
no extractable file name, and its size, `none` when metadata cannot be
read), a sub-directory (with name, inode and its own entries), or a
symbolic link (skipped by the walker since it is neither file nor dir when
links are not followed). -/
inductive FSNode : Type where
  | file (name : Option (List Nat)) (size : Option Nat) : FSNode
  | dir (name : List Nat) (ino : Nat) (entries : List (Option FSNode)) : FSNode
  | symlink : FSNode

/-- The byte string of the literal "no file name" substituted when a path
has no extractable base name. -/
def sentinelName : List Nat := [110, 111, 32, 102, 105, 108, 101, 32, 110, 97, 109, 101]

/-- Little-endian byte decomposition, `k` bytes. -/
def leBytes : Nat → Nat → List Nat
  | 0, _ => []
  | k + 1, n => n % 256 :: leBytes k (n / 256)

/-- `WriteBytesExt::write_u64::<LittleEndian>`: eight little-endian bytes. -/
def u64le (n : Nat) : List Nat := leBytes 8 n

/-- `hash_file_metadata`: digest of the base-name bytes (or the sentinel
literal when the path has no file name) followed by the size as a
fixed-width little-endian u64.  The fatal metadata read is handled by the
caller (`processFiles`), which aborts before calling this on a file whose
size is unavailable. -/
def hash_file_metadata (name : Option (List Nat)) (size : Nat) : FileHash :=
  FileHash.ofBytes (name.getD sentinelName ++ u64le size)

/-- `check_inode` (unix variant): `HashSet::insert`, true iff the inode was
not yet present; the set is returned updated. -/
def check_inode (inodes : List Nat) (ino : Nat) : Bool × List Nat :=
  if ino ∈ inodes then (false, inodes) else (true, ino :: inodes)

/-- The fingerprint index: `HashMap<FileHash, Vec<Rc<DirectoryData>>>`,
modelled as an association list in key-insertion order. -/
abbrev FIndex := List (FileHash × List DirectoryData)

/-- `map.entry(hash).or_insert(Vec::new()).push(data)`: append the record to
the bucket of its key, creating the bucket when absent. -/
def mapInsert (map : FIndex) (k : FileHash) (d : DirectoryData) : FIndex :=
  match map with
  | [] => [(k, [d])]
  | (k', b) :: rest =>
      if k' = k then (k', b ++ [d]) :: rest else (k', b) :: mapInsert rest k d

/-- Result of the first loop of `crawl_directory` (the `WalkDir` pass over
the immediate entries): the files found (name, size) in enumeration order,
one keep-decision per entry (true exactly for sub-directory entries whose
inode was fresh), and the updated inode set. -/
structure EnumResult where
  files : List (Option (List Nat) × Option Nat)
  keeps : List Bool
  inodes : List Nat

/-- First loop of `crawl_directory`: partition the entries in enumeration
order.  `Err` entries (`none`) are logged and skipped, files are collected,
sub-directories are kept iff `check_inode` returns true (the inode set is
updated as entries are encountered), symlinks are neither files nor
directories and are skipped. -/
def enumerate : List (Option FSNode) → List Nat → EnumResult
  | [], inodes => ⟨[], [], inodes⟩
  | none :: rest, inodes =>
      let e := enumerate rest inodes
      ⟨e.files, false :: e.keeps, e.inodes⟩
  | some (.file name size) :: rest, inodes =>
      let e := enumerate rest inodes
      ⟨(name, size) :: e.files, false :: e.keeps, e.inodes⟩
  | some (.dir _ ino _) :: rest, inodes =>
      let c := check_inode inodes ino
      let e := enumerate rest c.2
      ⟨e.files, c.1 :: e.keeps, e.inodes⟩
  | some .symlink :: rest, inodes =>
      let e := enumerate rest inodes
      ⟨e.files, false :: e.keeps, e.inodes⟩

/-- Third loop of `crawl_directory` (over `files_paths`): compute the leaf
hashes in order and the total size of the direct files.  A file whose size
metadata cannot be read makes the whole walk abort (`expect` in the source),
modelled by returning `none`. -/
def processFiles : List (Option (List Nat) × Option Nat) → Option (List FileHash × Nat)
  | [] => some ([], 0)
  | (name, size) :: rest =>
      match size with
      | none => none
      | some sz =>
          match processFiles rest with
          | none => none
          | some (hs, total) => some (hash_file_metadata name sz :: hs, sz + total)

/-- Sum of `1 + descendant_number` over the sub-directory records, as
accumulated by the second loop of `crawl_directory`. -/
def sumDesc (subs : List DirectoryData) : Nat :=
  subs.foldl (fun acc d => acc + (1 + d.descendant_number)) 0

/-- Sum of `disk_size` over the sub-directory records. -/
def sumDisk (subs : List DirectoryData) : Nat :=
  subs.foldl (fun acc d => acc + d.disk_size) 0

mutual

/-- `crawl_directory` of the source.  `path` is the path of this directory,
`entries` what its listing yields.  Returns `none` when the run aborts (a
file's size metadata could not be read somewhere below), otherwise the
directory's record, the updated fingerprint index and the updated inode
set. -/
def crawl_directory (path : List (List Nat)) (entries : List (Option FSNode))
    (map : FIndex) (inodes : List Nat) : Option (DirectoryData × FIndex × List Nat) :=
  let e := enumerate entries inodes
  match crawlKids path entries e.keeps map e.inodes with
  | none => none
  | some (subs, map1, inodes1) =>
      match processFiles e.files with
      | none => none
      | some (fileHashes, filesSize) =>
          let dir_data : DirectoryData :=
            { path := path
              children_hashes := subs.map DirectoryData.hash ++ fileHashes
              descendant_number := e.files.length + sumDesc subs
              disk_size := sumDisk subs + filesSize }
          some (dir_data, mapInsert map1 dir_data.hash dir_data, inodes1)
termination_by (sizeOf entries, 1)

/-- Second loop of `crawl_directory` (over `subdir_paths`): recurse into
the kept sub-directory entries, in order, threading the index and the inode
set; returns the sub-records in order.  The keep-decisions are those
computed by `enumerate` for this very entry list, aligned entrywise (true
only ever occurs at a directory entry). -/
def crawlKids (path : List (List Nat)) (entries : List (Option FSNode))
    (keeps : List Bool) (map : FIndex) (inodes : List Nat) :
    Option (List DirectoryData × FIndex × List Nat) :=
  match entries, keeps with
  | [], _ => some ([], map, inodes)
  | some (.dir name _ es) :: rest, true :: ks =>
      match crawl_directory (path ++ [name]) es map inodes with
      | none => none
      | some (dd, map1, inodes1) =>
          match crawlKids path rest ks map1 inodes1 with
          | none => none
          | some (ds, map2, inodes2) => some (dd :: ds, map2, inodes2)
  | _ :: rest, _ :: ks => crawlKids path rest ks map inodes
  | _ :: rest, [] => crawlKids path rest [] map inodes
termination_by (sizeOf entries, 0)

end

/-! The reducer, `list_duplicates`. -/

/-- `descendant_number` of a bucket's first record, as read by the sort
comparator (`.get(0).expect(..)`); defaults to 0 on an empty bucket, a case
the comparator never observes on an index built by the walk. -/
def headDescendant (b : List DirectoryData) : Nat :=
  match b.head? with
  | some d => d.descendant_number
  | none => 0

/-- The comparator of `sort_unstable_by`: descending by the first record's
`descendant_number`. -/
def bucketGE (a b : FileHash × List DirectoryData) : Bool :=
  headDescendant b.2 ≤ headDescendant a.2

/-- Sorted insertion for `sortBy`. -/
def insertSorted (le : α → α → Bool) (x : α) : List α → List α
  | [] => [x]
  | y :: ys => if le x y then x :: y :: ys else y :: insertSorted le x ys

/-- Deterministic model of `sort_unstable_by` (any order consistent with
the comparator is a correct model of the unstable sort; insertion sort is
one such order). -/
def sortBy (le : α → α → Bool) : List α → List α
  | [] => []
  | x :: xs => insertSorted le x (sortBy le xs)

/-- Lookup in `already_found_hashes` (the accounting `HashMap<FileHash,
usize>`), modelled as an association list. -/
def lookupCount : List (FileHash × Nat) → FileHash → Option Nat
  | [], _ => none
  | (k', n) :: rest, k => if k' = k then some n else lookupCount rest k

/-- `already_found_hashes.entry(h).or_insert(0); *num += m`. -/
def addCount : List (FileHash × Nat) → FileHash → Nat → List (FileHash × Nat)
  | [], k, m => [(k, m)]
  | (k', n) :: rest, k, m =>
      if k' = k then (k', n + m) :: rest else (k', n) :: addCount rest k m

/-- The inner loop of the accounting block: for every child hash of the
first record, add the bucket length to its entry. -/
def primeChildren (already : List (FileHash × Nat)) (hs : List FileHash)
    (m : Nat) : List (FileHash × Nat) :=
  hs.foldl (fun acc c => addCount acc c m) already

/-- Lines 139–144 of the source: `add_to_result` is set to false exactly
when the accounting map holds this fingerprint with a count equal to the
bucket length.  `accounted` is that falsifying condition. -/
def accounted (already : List (FileHash × Nat)) (key : FileHash) (len : Nat) : Bool :=
  match lookupCount already key with
  | some n => len == n
  | none => false

/-- One iteration of the loop of `list_duplicates`, acting on the state
(result list, accounting map).  `none` models the `expect` panic on an
empty bucket (which the sort comparator or this body would hit). -/
def reduceStep (min_size : Nat) (st : List (List DirectoryData) × List (FileHash × Nat))
    (kv : FileHash × List DirectoryData) :
    Option (List (List DirectoryData) × List (FileHash × Nat)) :=
  let result := st.1
  let already := st.2
  let key := kv.1
  let value := kv.2
  if value.length = 1 then some (result, already)
  else
    let add_to_result := !accounted already key value.length
    match value.head? with
    | none => none
    | some first_dir_data =>
        let already1 := primeChildren already first_dir_data.children_hashes value.length
        let keep := add_to_result &&
          !(first_dir_data.descendant_number == 0 ||
            decide (first_dir_data.disk_size < min_size))
        some (if keep then result ++ [value] else result, already1)

/-- `list_duplicates` of the source: sort the (fingerprint, bucket) pairs
descending by the first record's `descendant_number`, then run the
accounting loop.  `none` models a panic (only reachable on an index with an
empty bucket). -/
def list_duplicates (map : FIndex) (min_size : Nat) :
    Option (List (List DirectoryData)) :=
  let sorted := sortBy bucketGE map
  match sorted.foldlM (reduceStep min_size) ([], []) with
  | none => none
  | some (result, _) => some result

/-- A sequence of `check_inode` calls against one growing inode set,
returning the sequence of answers (the inode guard's visit discipline). -/
def runVisits (inodes : List Nat) : List Nat → List Bool
  | [] => []
  | id :: ids =>
      let c := check_inode inodes id
      c.1 :: runVisits c.2 ids

/-- True exactly at the sub-directory entries of a listing. -/
def dirMask (entries : List (Option FSNode)) : List Bool :=
  entries.map (fun e =>
    match e with
    | some (.dir _ _ _) => true
    | _ => false)

/-- Number of positions holding a sub-directory entry whose aligned
keep-decision is true: the retained sub-directories. -/
def countKept : List (Option FSNode) → List Bool → Nat
  | some (.dir _ _ _) :: rest, true :: ks => 1 + countKept rest ks
  | _ :: rest, _ :: ks => countKept rest ks
  | _ :: rest, [] => countKept rest []
  | [], _ => 0

/-- Whether the listing holds any file or sub-directory entry (symlinks and
failed entries not counted): the directory is non-empty in the sense of the
spec's invariant. -/
def hasRealChild (entries : List (Option FSNode)) : Bool :=
  entries.any (fun e =>
    match e with
    | some (.file _ _) => true
    | some (.dir _ _ _) => true
    | _ => false)

/-- The (name, size) pairs of the direct file entries, in order. -/
def filesOf : List (Option FSNode) → List (Option (List Nat) × Option Nat)
  | [] => []
  | some (.file n sz) :: rest => (n, sz) :: filesOf rest
  | _ :: rest => filesOf rest

/-- The inodes of the direct sub-directory entries. -/
def levelInos : List (Option FSNode) → List Nat
  | [] => []
  | some (.dir _ ino _) :: rest => ino :: levelInos rest
  | _ :: rest => levelInos rest

/-- All sub-directory inodes anywhere below this listing (the directory
entries themselves and their descendants). -/
def inosOf : List (Option FSNode) → List Nat
  | [] => []
  | some (.dir _ ino es) :: rest => ino :: (inosOf es ++ inosOf rest)
  | _ :: rest => inosOf rest

/-- The sub-directory inodes strictly below this level (descendants of the
direct sub-directory entries, not those entries themselves). -/
def subInos : List (Option FSNode) → List Nat
  | [] => []
  | some (.dir _ _ es) :: rest => inosOf es ++ subInos rest
  | _ :: rest => subInos rest

/-- Total number of files and directories transitively below a listing
(symlinks and failed entries not counted): the spec's `descendant_count`. -/
def totalCount : List (Option FSNode) → Nat
  | [] => 0
  | some (.file _ _) :: rest => 1 + totalCount rest
  | some (.dir _ _ es) :: rest => 1 + totalCount es + totalCount rest
  | _ :: rest => totalCount rest

/-- Sum of the sizes of all files transitively below a listing, directories
contributing 0: the spec's `disk_size`. -/
def totalSize : List (Option FSNode) → Nat
  | [] => 0
  | some (.file _ (some sz)) :: rest => sz + totalSize rest
  | some (.file _ none) :: rest => totalSize rest
  | some (.dir _ _ es) :: rest => totalSize es + totalSize rest
  | _ :: rest => totalSize rest

/-- Every file transitively below the listing has readable size metadata
(no fatal condition below this directory). -/
def sizesOk : List (Option FSNode) → Bool
  | [] => true
  | some (.file _ none) :: _ => false
  | some (.file _ (some _)) :: rest => sizesOk rest
  | some (.dir _ _ es) :: rest => sizesOk es && sizesOk rest
  | _ :: rest => sizesOk rest

/-- Sum over direct sub-directory entries of `1 + ` their total count. -/
def kidsCount : List (Option FSNode) → Nat
  | [] => 0
  | some (.dir _ _ es) :: rest => 1 + totalCount es + kidsCount rest
  | _ :: rest => kidsCount rest

/-- Sum over direct sub-directory entries of their total size. -/
def kidsSize : List (Option FSNode) → Nat
  | [] => 0
  | some (.dir _ _ es) :: rest => totalSize es + kidsSize rest
  | _ :: rest => kidsSize rest

/-! Theorems.  First, basic facts about the modelled digest. -/

@[simp] theorem FileHash.ofBytes_ne_ofHashes (a : List Nat) (b : List FileHash) :
    FileHash.ofBytes a ≠ FileHash.ofHashes b := fun hh => by cases hh

@[simp] theorem FileHash.ofHashes_ne_ofBytes (a : List FileHash) (b : List Nat) :
    FileHash.ofHashes a ≠ FileHash.ofBytes b := fun hh => by cases hh

@[simp] theorem FileHash.ofBytes_inj (a b : List Nat) :
    FileHash.ofBytes a = FileHash.ofBytes b ↔ a = b :=
  ⟨fun h => by cases h; rfl, fun h => by rw [h]⟩

@[simp] theorem FileHash.ofHashes_inj (a b : List FileHash) :
    FileHash.ofHashes a = FileHash.ofHashes b ↔ a = b :=
  ⟨fun h => by cases h; rfl, fun h => by rw [h]⟩

theorem leBytes_length (k n : Nat) : (leBytes k n).length = k := by
  induction k generalizing n with
  | zero => rfl
  | succ k ih => simp [leBytes, ih]

theorem leBytes_inj {k n m : Nat} (hn : n < 256 ^ k) (hm : m < 256 ^ k)
    (h : leBytes k n = leBytes k m) : n = m := by
  induction k generalizing n m with
  | zero => simp [pow_zero] at hn hm; omega
  | succ k ih =>
      simp only [leBytes, List.cons.injEq] at h
      have hd : n / 256 < 256 ^ k := by
        rw [Nat.div_lt_iff_lt_mul (by norm_num)]
        calc n < 256 ^ (k + 1) := hn
        _ = 256 ^ k * 256 := by rw [pow_succ]
      have hd' : m / 256 < 256 ^ k := by
        rw [Nat.div_lt_iff_lt_mul (by norm_num)]
        calc m < 256 ^ (k + 1) := hm
        _ = 256 ^ k * 256 := by rw [pow_succ]
      have := ih hd hd' h.2
      have h1 := h.1
      omega

/-- Claim C4: the leaf fingerprint is the digest of the base-name bytes
concatenated with the size as a fixed-width little-endian integer, so (for
sizes representable as u64, which every `std::fs` size is) two named files
fingerprint equal iff they share name and size; a file without an
extractable name is fingerprinted as if its name were the fixed sentinel
literal, so all such files collide whenever their sizes agree. -/
theorem claim_C4 (n1 n2 : List Nat) (s1 s2 : Nat)
    (h1 : s1 < 2 ^ 64) (h2 : s2 < 2 ^ 64) :
    (hash_file_metadata (some n1) s1 = hash_file_metadata (some n2) s2 ↔
      n1 = n2 ∧ s1 = s2)
    ∧ hash_file_metadata none s1 = hash_file_metadata (some sentinelName) s1 := by
  constructor
  · simp only [hash_file_metadata, Option.getD_some, FileHash.ofBytes_inj]
    constructor
    · intro h
      obtain ⟨ha, hb⟩ := List.append_inj' h (by simp [u64le, leBytes_length])
      refine ⟨ha, leBytes_inj ?_ ?_ hb⟩
      · simpa using h1
      · simpa using h2
    · rintro ⟨rfl, rfl⟩; rfl
  · rfl

theorem claim_C4_witness :
    (5 : Nat) < 2 ^ 64 ∧ (7 : Nat) < 2 ^ 64 ∧
    ((hash_file_metadata (some [1]) 5 = hash_file_metadata (some [2]) 7 ↔
        [1] = [2] ∧ 5 = 7)
      ∧ hash_file_metadata none 5 = hash_file_metadata (some sentinelName) 5) :=
  ⟨by norm_num, by norm_num,
    claim_C4 [1] [2] 5 7 (by norm_num) (by norm_num)⟩

/-! The reducer's loop body. -/

/-- Claim C1, counterexample to the claim as stated: processing a singleton
bucket whose only record has the child fingerprint `ofBytes []` leaves the
expected-count map empty — the child's entry is not incremented to 1 (the
source `continue`s before the priming block). -/
theorem claim_C1_counterexample :
    (reduceStep 0 ([], [])
        (FileHash.ofHashes [FileHash.ofBytes []],
         [⟨[], [FileHash.ofBytes []], 0, 0⟩])).map
      (fun st => lookupCount st.2 (FileHash.ofBytes [])) = some none := by
  simp [reduceStep, lookupCount]

/-- Claim C1, amended: a bucket with exactly one record is skipped entirely
by the reducer's loop — it is not reported and, contrary to the claim, its
children's expected counts are not primed: the whole state is unchanged. -/
theorem claim_C1 (min_size : Nat)
    (st : List (List DirectoryData) × List (FileHash × Nat))
    (kv : FileHash × List DirectoryData) (h : kv.2.length = 1) :
    reduceStep min_size st kv = some st := by
  simp [reduceStep, h]

theorem claim_C1_witness :
    ((FileHash.ofBytes [], [⟨[], [], 0, 0⟩]) :
        FileHash × List DirectoryData).2.length = 1 ∧
    reduceStep 3 ([], []) (FileHash.ofBytes [], [⟨[], [], 0, 0⟩]) =
      some ([], []) :=
  ⟨rfl, claim_C1 3 ([], []) (FileHash.ofBytes [], [⟨[], [], 0, 0⟩]) rfl⟩

/-- Claim C2: for a bucket of at least two records whose representative
passes the size filters, the reducer's loop body appends the bucket to the
result iff the accounting map does not hold this fingerprint with a count
exactly equal to the bucket length (an absent entry or a strictly smaller
count leaves it accepted); in either case the children are primed with the
bucket length. -/
theorem claim_C2 (min_size : Nat)
    (st : List (List DirectoryData) × List (FileHash × Nat))
    (k : FileHash) (first : DirectoryData) (rest : List DirectoryData)
    (hlen : 2 ≤ (first :: rest).length)
    (hdesc : first.descendant_number ≠ 0) (hsize : min_size ≤ first.disk_size) :
    reduceStep min_size st (k, first :: rest) =
      some ((if lookupCount st.2 k = some (first :: rest).length then st.1
             else st.1 ++ [first :: rest]),
            primeChildren st.2 first.children_hashes (first :: rest).length) := by
  have hrest : rest ≠ [] := by
    cases rest with
    | nil => simp at hlen
    | cons a l => simp
  have hs' : ¬ (first.disk_size < min_size) := not_lt.mpr hsize
  cases h : lookupCount st.2 k with
  | none => simp [reduceStep, accounted, h, hrest, hdesc, hs']
  | some n =>
      by_cases hn : n = rest.length + 1
      · subst hn
        simp [reduceStep, accounted, h, hrest, hdesc, hs']
      · simp [reduceStep, accounted, h, hrest, hdesc, hs', hn, Ne.symm hn]

theorem claim_C2_witness :
    2 ≤ ([⟨[], [], 1, 9⟩, ⟨[], [], 1, 9⟩] : List DirectoryData).length ∧
    (⟨[], [], 1, 9⟩ : DirectoryData).descendant_number ≠ 0 ∧
    (3 : Nat) ≤ (⟨[], [], 1, 9⟩ : DirectoryData).disk_size ∧
    reduceStep 3 ([], []) (FileHash.ofBytes [], [⟨[], [], 1, 9⟩, ⟨[], [], 1, 9⟩]) =
      some ((if lookupCount ([] : List (FileHash × Nat)) (FileHash.ofBytes []) =
               some ([⟨[], [], 1, 9⟩, ⟨[], [], 1, 9⟩] : List DirectoryData).length
             then ([] : List (List DirectoryData))
             else [] ++ [[⟨[], [], 1, 9⟩, ⟨[], [], 1, 9⟩]]),
            primeChildren [] (⟨[], [], 1, 9⟩ : DirectoryData).children_hashes
              ([⟨[], [], 1, 9⟩, ⟨[], [], 1, 9⟩] : List DirectoryData).length) :=
  ⟨by norm_num, by norm_num, by norm_num,
    claim_C2 3 ([], []) (FileHash.ofBytes []) ⟨[], [], 1, 9⟩ [⟨[], [], 1, 9⟩]
      (by norm_num) (by norm_num) (by norm_num)⟩

/-- Claim C6: for a bucket of at least two records, a representative with
`descendant_number = 0` or `disk_size < min_size` is excluded from the
result while the children are still primed exactly as they would otherwise
be; and a representative with `disk_size` exactly `min_size` (non-empty,
not fully accounted) is reported. -/
theorem claim_C6 (min_size : Nat)
    (st : List (List DirectoryData) × List (FileHash × Nat))
    (k : FileHash) (first : DirectoryData) (rest : List DirectoryData)
    (hlen : 2 ≤ (first :: rest).length) :
    ((first.descendant_number = 0 ∨ first.disk_size < min_size) →
        reduceStep min_size st (k, first :: rest) =
          some (st.1, primeChildren st.2 first.children_hashes (first :: rest).length))
    ∧ (first.disk_size = min_size → first.descendant_number ≠ 0 →
        lookupCount st.2 k ≠ some (first :: rest).length →
        reduceStep min_size st (k, first :: rest) =
          some (st.1 ++ [first :: rest],
                primeChildren st.2 first.children_hashes (first :: rest).length)) := by
  have hrest : rest ≠ [] := by
    cases rest with
    | nil => simp at hlen
    | cons a l => simp
  constructor
  · intro hfail
    rcases hfail with hd | hs
    · simp [reduceStep, accounted, hrest, hd]
    · simp [reduceStep, accounted, hrest, hs]
  · intro hdisk hdesc hacc
    have hs' : ¬ (first.disk_size < min_size) := by omega
    cases h : lookupCount st.2 k with
    | none => simp [reduceStep, accounted, h, hrest, hdesc, hs']
    | some n =>
        have hn : ¬ (n = rest.length + 1) := by
          intro hh
          apply hacc
          rw [h, hh]
          simp
        simp [reduceStep, accounted, h, hrest, hdesc, hs', Ne.symm hn]

theorem claim_C6_witness :
    2 ≤ ([⟨[], [], 0, 9⟩, ⟨[], [], 0, 9⟩] : List DirectoryData).length ∧
    ((⟨[], [], 0, 9⟩ : DirectoryData).descendant_number = 0 ∨
      (⟨[], [], 0, 9⟩ : DirectoryData).disk_size < 3) ∧
    reduceStep 3 ([], []) (FileHash.ofBytes [], [⟨[], [], 0, 9⟩, ⟨[], [], 0, 9⟩]) =
      some ([],
            primeChildren [] (⟨[], [], 0, 9⟩ : DirectoryData).children_hashes
              ([⟨[], [], 0, 9⟩, ⟨[], [], 0, 9⟩] : List DirectoryData).length) :=
  ⟨by norm_num, Or.inl rfl,
    (claim_C6 3 ([], []) (FileHash.ofBytes []) ⟨[], [], 0, 9⟩ [⟨[], [], 0, 9⟩]
        (by norm_num)).1 (Or.inl rfl)⟩


theorem runVisits_spec (s ids : List Nat) (i : Nat) :
    (runVisits s ids)[i]? =
      ids[i]?.map (fun id => decide (id ∉ s ∧ id ∉ ids.take i)) := by
  induction ids generalizing s i with
  | nil => simp [runVisits]
  | cons id ids ih =>
      cases i with
      | zero =>
          by_cases h : id ∈ s <;> simp [runVisits, check_inode, h]
      | succ i =>
          simp only [runVisits, List.getElem?_cons_succ, List.take_succ_cons, ih]
          cases h : ids[i]? with
          | none => rfl
          | some x =>
              simp only [Option.map_some']
              congr 1
              apply decide_eq_decide.mpr
              by_cases hid : id ∈ s
              · simp only [check_inode, if_pos hid, List.mem_cons]
                constructor
                · rintro ⟨h1, h2⟩
                  exact ⟨h1, fun hc => hc.elim (fun he => h1 (he ▸ hid)) h2⟩
                · rintro ⟨h1, h2⟩
                  exact ⟨h1, fun hc => h2 (Or.inr hc)⟩
              · simp only [check_inode, if_neg hid, List.mem_cons]
                tauto

theorem enumerate_keeps_length (xs : List (Option FSNode)) (s : List Nat) :
    (enumerate xs s).keeps.length = xs.length := by
  induction xs generalizing s with
  | nil => rfl
  | cons x rest ih =>
      cases x with
      | none => simp [enumerate, ih]
      | some n =>
          cases n with
          | file a b => simp [enumerate, ih]
          | dir a i es => simp [enumerate, ih]
          | symlink => simp [enumerate, ih]

theorem enumerate_append (xs ys : List (Option FSNode)) (s : List Nat) :
    enumerate (xs ++ ys) s =
      ⟨(enumerate xs s).files ++ (enumerate ys (enumerate xs s).inodes).files,
       (enumerate xs s).keeps ++ (enumerate ys (enumerate xs s).inodes).keeps,
       (enumerate ys (enumerate xs s).inodes).inodes⟩ := by
  induction xs generalizing s with
  | nil => simp [enumerate]
  | cons x rest ih =>
      cases x with
      | none => simp [enumerate, ih]
      | some n =>
          cases n with
          | file a b => simp [enumerate, ih]
          | dir a i es => simp [enumerate, ih]
          | symlink => simp [enumerate, ih]

theorem crawlKids_skip (path : List (List Nat)) (A : Option FSNode)
    (rest : List (Option FSNode)) (ks : List Bool) (map : FIndex) (inodes : List Nat) :
    crawlKids path (A :: rest) (false :: ks) map inodes =
      crawlKids path rest ks map inodes := by
  cases A with
  | none => simp [crawlKids]
  | some n =>
      cases n with
      | file a b => simp [crawlKids]
      | dir a i es => simp [crawlKids]
      | symlink => simp [crawlKids]

theorem crawlKids_skip_nondir (path : List (List Nat)) (A : Option FSNode)
    (hA : ∀ nm ino es, A ≠ some (.dir nm ino es))
    (rest : List (Option FSNode)) (k : Bool) (ks : List Bool) (map : FIndex)
    (inodes : List Nat) :
    crawlKids path (A :: rest) (k :: ks) map inodes =
      crawlKids path rest ks map inodes := by
  cases A with
  | none => cases k <;> simp [crawlKids]
  | some n =>
      cases n with
      | file a b => cases k <;> simp [crawlKids]
      | dir a i es => exact absurd rfl (hA a i es)
      | symlink => cases k <;> simp [crawlKids]

theorem crawlKids_append (path : List (List Nat)) (xs ys : List (Option FSNode))
    (ks1 ks2 : List Bool) (map : FIndex) (inodes : List Nat)
    (hlen : ks1.length = xs.length) :
    crawlKids path (xs ++ ys) (ks1 ++ ks2) map inodes =
      (crawlKids path xs ks1 map inodes).bind (fun r =>
        (crawlKids path ys ks2 r.2.1 r.2.2).map (fun r2 => (r.1 ++ r2.1, r2.2))) := by
  induction xs generalizing ks1 map inodes with
  | nil =>
      have : ks1 = [] := List.length_eq_zero.mp hlen
      subst this
      simp [crawlKids]
  | cons x rest ih =>
      cases ks1 with
      | nil => simp at hlen
      | cons k ks =>
          have hlen' : ks.length = rest.length := by simpa using hlen
          cases k with
          | false =>
              rw [List.cons_append, List.cons_append, crawlKids_skip, crawlKids_skip,
                ih ks map inodes hlen']
          | true =>
              cases x with
              | none =>
                  rw [List.cons_append, List.cons_append,
                    crawlKids_skip_nondir path none (by intro nm ino es h; cases h),
                    crawlKids_skip_nondir path none (by intro nm ino es h; cases h),
                    ih ks map inodes hlen']
              | some n =>
                  cases n with
                  | file a b =>
                      rw [List.cons_append, List.cons_append,
                        crawlKids_skip_nondir path (some (.file a b))
                          (by intro nm ino es h; cases h),
                        crawlKids_skip_nondir path (some (.file a b))
                          (by intro nm ino es h; cases h),
                        ih ks map inodes hlen']
                  | symlink =>
                      rw [List.cons_append, List.cons_append,
                        crawlKids_skip_nondir path (some .symlink)
                          (by intro nm ino es h; cases h),
                        crawlKids_skip_nondir path (some .symlink)
                          (by intro nm ino es h; cases h),
                        ih ks map inodes hlen']
                  | dir a i es =>
                      simp only [List.cons_append, crawlKids]
                      cases h : crawl_directory (path ++ [a]) es map inodes with
                      | none => rfl
                      | some r =>
                          obtain ⟨dd, map1, inodes1⟩ := r
                          have hrw := ih ks map1 inodes1 hlen'
                          simp only [hrw]
                          cases h2 : crawlKids path rest ks map1 inodes1 with
                          | none => simp
                          | some r2 =>
                              obtain ⟨ds2, map2, inodes2⟩ := r2
                              cases h3 : crawlKids path ys ks2 map2 inodes2 with
                              | none => simp [h3]
                              | some r3 => simp [h3]

theorem crawlKids_middle_skip (path : List (List Nat)) (pre post : List (Option FSNode))
    (A B : Option FSNode) (pk postk : List Bool) (map : FIndex) (inodes : List Nat)
    (hlen : pk.length = pre.length) :
    crawlKids path (pre ++ A :: post) (pk ++ false :: postk) map inodes =
      crawlKids path (pre ++ B :: post) (pk ++ false :: postk) map inodes := by
  rw [crawlKids_append path pre (A :: post) pk (false :: postk) map inodes hlen,
    crawlKids_append path pre (B :: post) pk (false :: postk) map inodes hlen]
  congr 1
  funext r
  rw [crawlKids_skip, crawlKids_skip]

theorem crawlKids_middle_drop (path : List (List Nat)) (pre post : List (Option FSNode))
    (A : Option FSNode) (pk postk : List Bool) (map : FIndex) (inodes : List Nat)
    (hlen : pk.length = pre.length) :
    crawlKids path (pre ++ A :: post) (pk ++ false :: postk) map inodes =
      crawlKids path (pre ++ post) (pk ++ postk) map inodes := by
  rw [crawlKids_append path pre (A :: post) pk (false :: postk) map inodes hlen,
    crawlKids_append path pre post pk postk map inodes hlen]
  congr 1
  funext r
  rw [crawlKids_skip]

/-- Claim C7: (1) presenting identifiers to the inode guard in sequence,
the answer at each position is true exactly when that identifier does not
occur earlier in the sequence — true on first presentation, false on every
later one; (2) a sub-directory entry whose inode is already in the guard's
set when the enumeration reaches it is pruned before recursion: the walk
result is exactly as if the entry were an ignored entry (a symlink),
contributing no child fingerprint, no descendant count and no disk size. -/
theorem claim_C7 :
    (∀ (ids : List Nat) (i : Nat),
        (runVisits [] ids)[i]? =
          ids[i]?.map (fun id => decide (id ∉ ids.take i)))
    ∧ (∀ (path : List (List Nat)) (pre : List (Option FSNode)) (name : List Nat)
        (ino : Nat) (es post : List (Option FSNode)) (map : FIndex)
        (inodes : List Nat),
        ino ∈ (enumerate pre inodes).inodes →
        crawl_directory path (pre ++ some (.dir name ino es) :: post) map inodes =
          crawl_directory path (pre ++ some .symlink :: post) map inodes) := by
  constructor
  · intro ids i
    have := runVisits_spec [] ids i
    simpa using this
  · intro path pre name ino es post map inodes h
    have henum : enumerate (pre ++ some (.dir name ino es) :: post) inodes =
        enumerate (pre ++ some .symlink :: post) inodes := by
      rw [enumerate_append, enumerate_append]
      simp [enumerate, check_inode, h]
    have hkeeps : (enumerate (pre ++ some .symlink :: post) inodes).keeps =
        (enumerate pre inodes).keeps ++
          false :: (enumerate post (enumerate pre inodes).inodes).keeps := by
      rw [enumerate_append]
      simp [enumerate]
    simp only [crawl_directory]
    rw [henum, hkeeps]
    rw [crawlKids_middle_skip path pre post (some (.dir name ino es)) (some .symlink)
      _ _ map _ (enumerate_keeps_length pre inodes)]

theorem claim_C7_witness :
    ((runVisits [] [5, 5])[1]? =
      [5, 5][1]?.map (fun id => decide (id ∉ [5, 5].take 1)))
    ∧ ((7 : Nat) ∈ (enumerate [some (.dir [65] 7 [])] []).inodes ∧
        crawl_directory [[82]]
            ([some (.dir [65] 7 [])] ++
              some (.dir [66] 7 [some (.file (some [102]) (some 3))]) :: []) [] [] =
          crawl_directory [[82]] ([some (.dir [65] 7 [])] ++ some .symlink :: []) [] []) :=
  by
  refine ⟨claim_C7.1 [5, 5] 1, ?_, ?_⟩
  · simp [enumerate, check_inode]
  · exact claim_C7.2 [[82]] [some (.dir [65] 7 [])] [66] 7
      [some (.file (some [102]) (some 3))] [] [] []
      (by simp [enumerate, check_inode])

theorem mem_files_of_mem (nm : Option (List Nat)) (entries : List (Option FSNode))
    (s : List Nat) (h : some (.file nm none) ∈ entries) :
    (nm, none) ∈ (enumerate entries s).files := by
  induction entries generalizing s with
  | nil => cases h
  | cons x rest ih =>
      rcases List.mem_cons.mp h with he | hm
      · subst he
        simp [enumerate]
      · cases x with
        | none => simpa [enumerate] using ih s hm
        | some n =>
            cases n with
            | file a b => simp [enumerate]; right; exact ih s hm
            | dir a i es => simpa [enumerate] using ih _ hm
            | symlink => simpa [enumerate] using ih s hm

theorem processFiles_of_none (files : List (Option (List Nat) × Option Nat))
    (nm : Option (List Nat)) (h : (nm, none) ∈ files) :
    processFiles files = none := by
  induction files with
  | nil => cases h
  | cons f rest ih =>
      obtain ⟨n, sz⟩ := f
      rcases List.mem_cons.mp h with he | hm
      · cases he
        simp [processFiles]
      · cases sz with
        | none => simp [processFiles]
        | some v => simp [processFiles, ih hm]

/-- Claim C8: a file whose size metadata cannot be read anywhere in a
directory's own listing aborts the whole walk (the result is `none`, no
partial continuation), while an entry that fails to enumerate (`Err` from
the directory iterator) is skipped: the walk result is identical to the
walk of the same listing without that entry. -/
theorem claim_C8 :
    (∀ (path : List (List Nat)) (entries : List (Option FSNode)) (map : FIndex)
        (inodes : List Nat) (nm : Option (List Nat)),
        some (.file nm none) ∈ entries →
        crawl_directory path entries map inodes = none)
    ∧ (∀ (path : List (List Nat)) (pre post : List (Option FSNode)) (map : FIndex)
        (inodes : List Nat),
        crawl_directory path (pre ++ none :: post) map inodes =
          crawl_directory path (pre ++ post) map inodes) := by
  constructor
  · intro path entries map inodes nm h
    have hf := processFiles_of_none _ _ (mem_files_of_mem nm entries inodes h)
    simp only [crawl_directory]
    cases hk : crawlKids path entries (enumerate entries inodes).keeps map
        (enumerate entries inodes).inodes with
    | none => rfl
    | some r =>
        obtain ⟨subs, map1, inodes1⟩ := r
        simp [hf]
  · intro path pre post map inodes
    have ha := enumerate_append pre (none :: post) inodes
    have hb := enumerate_append pre post inodes
    simp only [crawl_directory]
    rw [ha, hb]
    simp only [enumerate]
    rw [crawlKids_middle_drop path pre post none _ _ map _
      (enumerate_keeps_length pre inodes)]

theorem claim_C8_witness :
    (some (FSNode.file (some [102]) none) ∈
        [some (FSNode.dir [65] 1 []), some (FSNode.file (some [102]) none)] ∧
      crawl_directory [[82]] [some (.dir [65] 1 []), some (.file (some [102]) none)]
        [] [] = none)
    ∧ crawl_directory [[82]]
          ([some (.dir [65] 1 [])] ++ none :: [some (.file (some [103]) (some 4))]) [] [] =
        crawl_directory [[82]]
          ([some (.dir [65] 1 [])] ++ [some (.file (some [103]) (some 4))]) [] [] :=
  by
  refine ⟨⟨by simp, ?_⟩, ?_⟩
  · exact claim_C8.1 [[82]] [some (.dir [65] 1 []), some (.file (some [102]) none)] [] []
      (some [102]) (by simp)
  · exact claim_C8.2 [[82]] [some (.dir [65] 1 [])] [some (.file (some [103]) (some 4))] [] []



theorem sumDesc_aux (l : List DirectoryData) (a : Nat) :
    l.foldl (fun acc d => acc + (1 + d.descendant_number)) a = a + sumDesc l := by
  induction l generalizing a with
  | nil => simp [sumDesc]
  | cons d ds ih =>
      simp only [sumDesc, List.foldl_cons] at *
      rw [ih (a + (1 + d.descendant_number)), ih (0 + (1 + d.descendant_number))]
      omega

theorem sumDesc_eq_zero (l : List DirectoryData) : sumDesc l = 0 ↔ l = [] := by
  cases l with
  | nil => simp [sumDesc]
  | cons d ds =>
      simp only [sumDesc, List.foldl_cons]
      rw [sumDesc_aux]
      constructor
      · intro h; omega
      · intro h; cases h

theorem crawlKids_count (path : List (List Nat)) (entries : List (Option FSNode)) :
    ∀ (keeps : List Bool) (map : FIndex) (inodes : List Nat)
      (ds : List DirectoryData) (m2 : FIndex) (i2 : List Nat),
      crawlKids path entries keeps map inodes = some (ds, m2, i2) →
      ds.length = countKept entries keeps := by
  induction entries with
  | nil =>
      intro keeps map inodes ds m2 i2 h
      simp [crawlKids] at h
      simp [h.1, countKept]
  | cons x rest ih =>
      intro keeps map inodes ds m2 i2 h
      cases keeps with
      | nil =>
          have hx : crawlKids path (x :: rest) [] map inodes =
              crawlKids path rest [] map inodes := by
            cases x with
            | none => simp [crawlKids]
            | some n => cases n <;> simp [crawlKids]
          rw [hx] at h
          have := ih [] map inodes ds m2 i2 h
          rw [this]
          cases x with
          | none => simp [countKept]
          | some n => cases n <;> simp [countKept]
      | cons k ks =>
          by_cases hd : ∃ nm ino es, x = some (.dir nm ino es) ∧ k = true
          · obtain ⟨nm, ino, es, rfl, rfl⟩ := hd
            simp only [crawlKids] at h
            cases hc : crawl_directory (path ++ [nm]) es map inodes with
            | none => rw [hc] at h; cases h
            | some r =>
                obtain ⟨dd, map1, inodes1⟩ := r
                rw [hc] at h
                dsimp only at h
                cases hk : crawlKids path rest ks map1 inodes1 with
                | none => rw [hk] at h; cases h
                | some r2 =>
                    obtain ⟨ds2, map2, inodes2⟩ := r2
                    rw [hk] at h
                    simp only [Option.some.injEq, Prod.mk.injEq] at h
                    obtain ⟨h1, h2, h3⟩ := h
                    subst h1
                    have := ih ks map1 inodes1 ds2 map2 inodes2 hk
                    simp [countKept, this]
                    omega
          · have hskip : crawlKids path (x :: rest) (k :: ks) map inodes =
                crawlKids path rest ks map inodes := by
              cases x with
              | none => cases k <;> simp [crawlKids]
              | some n =>
                  cases n with
                  | file a b => cases k <;> simp [crawlKids]
                  | symlink => cases k <;> simp [crawlKids]
                  | dir a i es =>
                      cases k with
                      | false => simp [crawlKids]
                      | true => exact absurd ⟨a, i, es, rfl, rfl⟩ hd
            rw [hskip] at h
            have := ih ks map inodes ds m2 i2 h
            rw [this]
            cases x with
            | none => simp [countKept]
            | some n =>
                cases n with
                | file a b => simp [countKept]
                | symlink => simp [countKept]
                | dir a i es =>
                    cases k with
                    | false => simp [countKept]
                    | true => exact absurd ⟨a, i, es, rfl, rfl⟩ hd

theorem processFiles_length (files : List (Option (List Nat) × Option Nat)) :
    ∀ (hs : List FileHash) (t : Nat), processFiles files = some (hs, t) →
      hs.length = files.length := by
  induction files with
  | nil => intro hs t h; simp [processFiles] at h; simp [h.1]
  | cons f rest ih =>
      intro hs t h
      obtain ⟨n, sz⟩ := f
      cases sz with
      | none => simp [processFiles] at h
      | some v =>
          simp only [processFiles] at h
          cases hr : processFiles rest with
          | none => rw [hr] at h; cases h
          | some r2 =>
              obtain ⟨hs2, t2⟩ := r2
              rw [hr] at h
              simp only [Option.some.injEq, Prod.mk.injEq] at h
              obtain ⟨h1, h2⟩ := h
              subst h1
              simp [ih hs2 t2 hr]

/-- Claim C9, counterexample to the claim as stated: a directory whose only
entry is a sub-directory already seen by the inode guard (pruned) produces
a record with empty `children_hashes` and `descendant_number = 0`, yet the
directory is not empty of sub-directories (and that entry is neither a
symlink nor a failed enumeration). -/
theorem claim_C9_counterexample :
    (crawl_directory [[66]]
        [some (.dir [67] 1 [some (.file (some [102]) (some 5))])] [] [1]).map
      (fun r => (r.1.children_hashes, r.1.descendant_number)) = some ([], 0)
    ∧ hasRealChild [some (.dir [67] 1 [some (.file (some [102]) (some 5))])] = true := by
  constructor
  · simp [crawl_directory, crawlKids, enumerate, check_inode, processFiles,
      mapInsert, DirectoryData.hash, sumDesc, sumDisk]
  · rfl

/-- Claim C9, amended: a walked directory's record has empty
`children_hashes` and `descendant_number = 0` iff its listing yields no
file entries and no retained sub-directory entries — where, besides
symlinks and failed-to-enumerate entries, sub-directory entries pruned by
the inode guard are also excluded from consideration. -/
theorem claim_C9 (path : List (List Nat)) (entries : List (Option FSNode))
    (map : FIndex) (inodes : List Nat) (dd : DirectoryData) (m' : FIndex)
    (i' : List Nat)
    (h : crawl_directory path entries map inodes = some (dd, m', i')) :
    (dd.children_hashes = [] ∧ dd.descendant_number = 0) ↔
      ((enumerate entries inodes).files = [] ∧
        countKept entries (enumerate entries inodes).keeps = 0) := by
  simp only [crawl_directory] at h
  cases hk : crawlKids path entries (enumerate entries inodes).keeps map
      (enumerate entries inodes).inodes with
  | none => rw [hk] at h; cases h
  | some r =>
      obtain ⟨subs, map1, inodes1⟩ := r
      rw [hk] at h
      cases hp : processFiles (enumerate entries inodes).files with
      | none => rw [hp] at h; cases h
      | some p =>
          obtain ⟨hs, total⟩ := p
          rw [hp] at h
          simp only [Option.some.injEq, Prod.mk.injEq] at h
          obtain ⟨h1, h2, h3⟩ := h
          subst h1
          have hsublen := crawlKids_count path entries _ map _ subs map1 inodes1 hk
          have hfilelen := processFiles_length _ hs total hp
          simp only [List.append_eq_nil, List.map_eq_nil_iff]
          constructor
          · rintro ⟨⟨hsubs, hhs⟩, _⟩
            subst hsubs
            constructor
            · rw [← List.length_eq_zero, ← hfilelen, List.length_eq_zero]; exact hhs
            · rw [← hsublen]; rfl
          · rintro ⟨hfe, hck⟩
            have hsubs : subs = [] := by
              rw [← List.length_eq_zero, hsublen, hck]
            have hhs : hs = [] := by
              rw [← List.length_eq_zero, hfilelen, hfe]; rfl
            subst hsubs
            refine ⟨⟨rfl, hhs⟩, ?_⟩
            simp [hfe, sumDesc]

theorem claim_C9_witness :
    crawl_directory [[69]] [] ([] : FIndex) [] =
      some (⟨[[69]], [], 0, 0⟩, [(FileHash.ofHashes [], ⟨[[69]], [], 0, 0⟩ :: [])], []) ∧
    (((⟨[[69]], [], 0, 0⟩ : DirectoryData).children_hashes = [] ∧
        (⟨[[69]], [], 0, 0⟩ : DirectoryData).descendant_number = 0) ↔
      ((enumerate [] []).files = [] ∧ countKept [] (enumerate [] []).keeps = 0)) := by
  have hcd : crawl_directory [[69]] [] ([] : FIndex) [] =
      some (⟨[[69]], [], 0, 0⟩, [(FileHash.ofHashes [], ⟨[[69]], [], 0, 0⟩ :: [])], []) := by
    simp [crawl_directory, crawlKids, enumerate, processFiles, mapInsert,
      DirectoryData.hash, sumDesc, sumDisk]
  exact ⟨hcd, claim_C9 [[69]] [] [] [] ⟨[[69]], [], 0, 0⟩ _ _ hcd⟩



theorem mapInsert_nonempty (map : FIndex) (k : FileHash) (d : DirectoryData)
    (hinv : ∀ p ∈ map, p.2 ≠ []) : ∀ p ∈ mapInsert map k d, p.2 ≠ [] := by
  induction map with
  | nil =>
      intro p hp
      simp [mapInsert] at hp
      simp [hp]
  | cons q rest ih =>
      obtain ⟨k', b⟩ := q
      intro p hp
      simp only [mapInsert] at hp
      by_cases he : k' = k
      · rw [if_pos he] at hp
        rcases List.mem_cons.mp hp with h1 | h2
        · subst h1; simp
        · exact hinv p (List.mem_cons_of_mem _ h2)
      · rw [if_neg he] at hp
        rcases List.mem_cons.mp hp with h1 | h2
        · subst h1
          exact hinv (k', b) (List.mem_cons_self _ _)
        · exact ih (fun q hq => hinv q (List.mem_cons_of_mem _ hq)) p h2

theorem crawl_nonempty :
    ∀ (path : List (List Nat)) (entries : List (Option FSNode)) (map : FIndex)
      (inodes : List Nat) (dd : DirectoryData) (m' : FIndex) (i' : List Nat),
      crawl_directory path entries map inodes = some (dd, m', i') →
      (∀ p ∈ map, p.2 ≠ []) → ∀ p ∈ m', p.2 ≠ [] := by
  refine crawl_directory.induct
    (fun path entries map inodes => ∀ dd m' i',
      crawl_directory path entries map inodes = some (dd, m', i') →
      (∀ p ∈ map, p.2 ≠ []) → ∀ p ∈ m', p.2 ≠ [])
    (fun path entries keeps map inodes => ∀ ds m' i',
      crawlKids path entries keeps map inodes = some (ds, m', i') →
      (∀ p ∈ map, p.2 ≠ []) → ∀ p ∈ m', p.2 ≠ [])
    ?_ ?_ ?_ ?_ ?_ ?_ ?_ ?_ ?_
  · intro path entries map inodes
    dsimp only
    intro hk _ dd m' i' hcrawl _
    simp only [crawl_directory] at hcrawl
    rw [hk] at hcrawl
    cases hcrawl
  · intro path entries map inodes
    dsimp only
    intro subs map1 inodes1 hk hp _ dd m' i' hcrawl _
    simp only [crawl_directory] at hcrawl
    rw [hk] at hcrawl
    dsimp only at hcrawl
    rw [hp] at hcrawl
    cases hcrawl
  · intro path entries map inodes
    dsimp only
    intro subs map1 inodes1 hk hs total hp ih2 dd m' i' hcrawl hinv
    simp only [crawl_directory] at hcrawl
    rw [hk] at hcrawl
    dsimp only at hcrawl
    rw [hp] at hcrawl
    dsimp only at hcrawl
    simp only [Option.some.injEq, Prod.mk.injEq] at hcrawl
    obtain ⟨h1, h2, h3⟩ := hcrawl
    subst h2
    exact mapInsert_nonempty map1 _ _ (ih2 subs map1 inodes1 hk hinv)
  · intro path keeps map inodes ds m' i' h hinv
    simp only [crawlKids, Option.some.injEq, Prod.mk.injEq] at h
    obtain ⟨_, h2, _⟩ := h
    subst h2
    exact hinv
  · intro path map inodes name ino es rest ks hc _ ds m' i' h _
    simp only [crawlKids] at h
    rw [hc] at h
    cases h
  · intro path map inodes name ino es rest ks dd map1 inodes1 hc hk _ _ ds m' i' h _
    simp only [crawlKids] at h
    rw [hc] at h
    dsimp only at h
    rw [hk] at h
    cases h
  · intro path map inodes name ino es rest ks dd map1 inodes1 hc subs map2 inodes2 hk
      ih1 ih2 ds m' i' h hinv
    simp only [crawlKids] at h
    rw [hc] at h
    dsimp only at h
    rw [hk] at h
    simp only [Option.some.injEq, Prod.mk.injEq] at h
    obtain ⟨h1, h2, h3⟩ := h
    subst h2
    exact ih2 subs map2 inodes2 hk (ih1 dd map1 inodes1 hc hinv)
  · intro path map inodes head rest k ks hne ih ds m' i' h hinv
    have hred : crawlKids path (head :: rest) (k :: ks) map inodes =
        crawlKids path rest ks map inodes := by
      cases k with
      | false => exact crawlKids_skip path head rest ks map inodes
      | true =>
          refine crawlKids_skip_nondir path head ?_ rest true ks map inodes
          intro nm ino es he
          exact hne nm ino es he rfl
    rw [hred] at h
    exact ih ds m' i' h hinv
  · intro path map inodes head rest ih ds m' i' h hinv
    have hred : crawlKids path (head :: rest) [] map inodes =
        crawlKids path rest [] map inodes := by
      cases head with
      | none => simp [crawlKids]
      | some n => cases n <;> simp [crawlKids]
    rw [hred] at h
    exact ih ds m' i' h hinv

theorem insertSorted_mem {α : Type} (le : α → α → Bool) (x a : α) (l : List α) :
    a ∈ insertSorted le x l ↔ a = x ∨ a ∈ l := by
  induction l with
  | nil => simp [insertSorted]
  | cons y ys ih =>
      simp only [insertSorted]
      by_cases h : le x y = true
      · rw [if_pos h]
        simp [List.mem_cons]
      · rw [if_neg h]
        simp only [List.mem_cons, ih]
        tauto

theorem sortBy_mem {α : Type} (le : α → α → Bool) (a : α) (l : List α) :
    a ∈ sortBy le l ↔ a ∈ l := by
  induction l with
  | nil => simp [sortBy]
  | cons x xs ih => simp [sortBy, insertSorted_mem, ih]

theorem reduceStep_isSome (min_size : Nat)
    (st : List (List DirectoryData) × List (FileHash × Nat))
    (kv : FileHash × List DirectoryData) (h : kv.2 ≠ []) :
    (reduceStep min_size st kv).isSome := by
  obtain ⟨k, value⟩ := kv
  cases value with
  | nil => simp at h
  | cons v vs =>
      by_cases hl : (v :: vs).length = 1
      · simp [reduceStep, hl]
      · simp [reduceStep, hl]
        split <;> simp

theorem foldlM_reduce_isSome (min_size : Nat) :
    ∀ (l : List (FileHash × List DirectoryData))
      (st : List (List DirectoryData) × List (FileHash × Nat)),
      (∀ kv ∈ l, kv.2 ≠ []) →
      (List.foldlM (reduceStep min_size) st l).isSome := by
  intro l
  induction l with
  | nil => intro st _; simp
  | cons kv rest ih =>
      intro st hall
      simp only [List.foldlM_cons]
      have h1 : (reduceStep min_size st kv).isSome :=
        reduceStep_isSome min_size st kv (hall kv (List.mem_cons_self _ _))
      cases hr : reduceStep min_size st kv with
      | none => rw [hr] at h1; cases h1
      | some st2 =>
          simpa using ih st2 (fun q hq => hall q (List.mem_cons_of_mem _ hq))

/-- Claim C10: every bucket of an index produced by the walk from an empty
index is non-empty (a bucket is only ever created by pushing its first
record), and consequently the reducer, whose empty-bucket accesses are
modelled as the `none` outcome, always returns a result on such an index
(the `expect` calls cannot fail). -/
theorem claim_C10 (path : List (List Nat)) (entries : List (Option FSNode))
    (inodes : List Nat) (min_size : Nat) (dd : DirectoryData) (m' : FIndex)
    (i' : List Nat)
    (h : crawl_directory path entries [] inodes = some (dd, m', i')) :
    (∀ p ∈ m', p.2 ≠ []) ∧ (list_duplicates m' min_size).isSome := by
  have hne : ∀ p ∈ m', p.2 ≠ [] :=
    crawl_nonempty path entries [] inodes dd m' i' h (by intro p hp; cases hp)
  refine ⟨hne, ?_⟩
  simp only [list_duplicates]
  have hsorted : ∀ kv ∈ sortBy bucketGE m', kv.2 ≠ [] := by
    intro kv hkv
    exact hne kv ((sortBy_mem bucketGE kv m').mp hkv)
  have := foldlM_reduce_isSome min_size (sortBy bucketGE m') ([], []) hsorted
  cases hf : List.foldlM (reduceStep min_size) ([], []) (sortBy bucketGE m') with
  | none => rw [hf] at this; cases this
  | some r => simp

theorem claim_C10_witness :
    crawl_directory [[82]] [some (.file (some [102]) (some 3))] [] [] =
      some (⟨[[82]], [hash_file_metadata (some [102]) 3], 1, 3⟩,
        [(FileHash.ofHashes [hash_file_metadata (some [102]) 3],
          [⟨[[82]], [hash_file_metadata (some [102]) 3], 1, 3⟩])], []) ∧
    (∀ p ∈ ([(FileHash.ofHashes [hash_file_metadata (some [102]) 3],
          [⟨[[82]], [hash_file_metadata (some [102]) 3], 1, 3⟩])] : FIndex), p.2 ≠ []) ∧
    (list_duplicates
        [(FileHash.ofHashes [hash_file_metadata (some [102]) 3],
          [⟨[[82]], [hash_file_metadata (some [102]) 3], 1, 3⟩])] 1).isSome := by
  have hcd : crawl_directory [[82]] [some (.file (some [102]) (some 3))] [] [] =
      some (⟨[[82]], [hash_file_metadata (some [102]) 3], 1, 3⟩,
        [(FileHash.ofHashes [hash_file_metadata (some [102]) 3],
          [⟨[[82]], [hash_file_metadata (some [102]) 3], 1, 3⟩])], []) := by
    simp [crawl_directory, crawlKids, enumerate, processFiles, mapInsert,
      DirectoryData.hash, sumDesc, sumDisk]
  have := claim_C10 _ _ _ 1 _ _ _ hcd
  exact ⟨hcd, this.1, this.2⟩



theorem enumerate_files (entries : List (Option FSNode)) (s : List Nat) :
    (enumerate entries s).files = filesOf entries := by
  induction entries generalizing s with
  | nil => rfl
  | cons x rest ih =>
      cases x with
      | none => simp [enumerate, filesOf, ih]
      | some n =>
          cases n with
          | file a b => simp [enumerate, filesOf, ih]
          | dir a i es => simp [enumerate, filesOf, ih]
          | symlink => simp [enumerate, filesOf, ih]

theorem mem_levelInos_inosOf (entries : List (Option FSNode)) (j : Nat)
    (h : j ∈ levelInos entries) : j ∈ inosOf entries := by
  induction entries with
  | nil => cases h
  | cons x rest ih =>
      cases x with
      | none =>
          simp only [levelInos] at h
          simp only [inosOf]
          exact ih h
      | some n =>
          cases n with
          | file a b =>
              simp only [levelInos] at h
              simp only [inosOf]
              exact ih h
          | symlink =>
              simp only [levelInos] at h
              simp only [inosOf]
              exact ih h
          | dir a i es =>
              simp only [levelInos, List.mem_cons] at h
              rcases h with h | h
              · simp [inosOf, h]
              · simp only [inosOf, List.mem_cons, List.mem_append]
                exact Or.inr (Or.inr (ih h))

theorem mem_subInos_inosOf (entries : List (Option FSNode)) (j : Nat)
    (h : j ∈ subInos entries) : j ∈ inosOf entries := by
  induction entries with
  | nil => cases h
  | cons x rest ih =>
      cases x with
      | none =>
          simp only [subInos] at h
          simp only [inosOf]
          exact ih h
      | some n =>
          cases n with
          | file a b =>
              simp only [subInos] at h
              simp only [inosOf]
              exact ih h
          | symlink =>
              simp only [subInos] at h
              simp only [inosOf]
              exact ih h
          | dir a i es =>
              simp only [subInos, List.mem_append] at h
              simp only [inosOf, List.mem_cons, List.mem_append]
              rcases h with h | h
              · exact Or.inr (Or.inl h)
              · exact Or.inr (Or.inr (ih h))

theorem subInos_nodup (entries : List (Option FSNode))
    (h : (inosOf entries).Nodup) : (subInos entries).Nodup := by
  induction entries with
  | nil => exact List.nodup_nil
  | cons x rest ih =>
      cases x with
      | none =>
          simp only [inosOf] at h
          simp only [subInos]
          exact ih h
      | some n =>
          cases n with
          | file a b =>
              simp only [inosOf] at h
              simp only [subInos]
              exact ih h
          | symlink =>
              simp only [inosOf] at h
              simp only [subInos]
              exact ih h
          | dir a i es =>
              simp only [inosOf, List.nodup_cons, List.nodup_append] at h
              obtain ⟨_, hes, hrest, hdisj⟩ := h
              simp only [subInos, List.nodup_append]
              exact ⟨hes, ih hrest, fun j hj1 hj2 =>
                hdisj hj1 (mem_subInos_inosOf rest j hj2)⟩

theorem level_sub_disjoint (entries : List (Option FSNode))
    (h : (inosOf entries).Nodup) :
    ∀ j, j ∈ levelInos entries → j ∈ subInos entries → False := by
  induction entries with
  | nil => intro j hj; cases hj
  | cons x rest ih =>
      cases x with
      | none =>
          simp only [inosOf] at h
          simp only [levelInos, subInos]
          exact ih h
      | some n =>
          cases n with
          | file a b =>
              simp only [inosOf] at h
              simp only [levelInos, subInos]
              exact ih h
          | symlink =>
              simp only [inosOf] at h
              simp only [levelInos, subInos]
              exact ih h
          | dir a i es =>
              simp only [inosOf, List.nodup_cons, List.nodup_append] at h
              obtain ⟨hino, hes, hrest, hdisj⟩ := h
              intro j hj1 hj2
              simp only [levelInos, List.mem_cons] at hj1
              simp only [subInos, List.mem_append] at hj2
              rcases hj1 with rfl | hj1
              · rcases hj2 with hj2 | hj2
                · exact hino (List.mem_append.mpr (Or.inl hj2))
                · exact hino (List.mem_append.mpr
                    (Or.inr (mem_subInos_inosOf rest j hj2)))
              · rcases hj2 with hj2 | hj2
                · exact hdisj hj2 (mem_levelInos_inosOf rest j hj1)
                · exact ih hrest j hj1 hj2

theorem enumerate_fresh (entries : List (Option FSNode)) (s : List Nat)
    (hnd : (inosOf entries).Nodup) (hdj : ∀ j ∈ inosOf entries, j ∉ s) :
    (enumerate entries s).keeps = dirMask entries ∧
      (∀ j, j ∈ (enumerate entries s).inodes ↔ j ∈ s ∨ j ∈ levelInos entries) := by
  induction entries generalizing s with
  | nil =>
      refine ⟨rfl, fun j => ?_⟩
      simp [enumerate, levelInos]
  | cons x rest ih =>
      cases x with
      | none =>
          simp only [inosOf] at hnd hdj
          obtain ⟨h1, h2⟩ := ih s hnd hdj
          exact ⟨by simp [enumerate, dirMask, h1], by
            intro j
            simpa [enumerate, levelInos] using h2 j⟩
      | some n =>
          cases n with
          | file a b =>
              simp only [inosOf] at hnd hdj
              obtain ⟨h1, h2⟩ := ih s hnd hdj
              exact ⟨by simp [enumerate, dirMask, h1], by
                intro j
                simpa [enumerate, levelInos] using h2 j⟩
          | symlink =>
              simp only [inosOf] at hnd hdj
              obtain ⟨h1, h2⟩ := ih s hnd hdj
              exact ⟨by simp [enumerate, dirMask, h1], by
                intro j
                simpa [enumerate, levelInos] using h2 j⟩
          | dir a i es =>
              simp only [inosOf, List.nodup_cons, List.nodup_append] at hnd
              obtain ⟨hino, hes, hrest, hdisj2⟩ := hnd
              have hins : i ∉ s := by
                apply hdj
                simp [inosOf]
              have hdj' : ∀ j ∈ inosOf rest, j ∉ i :: s := by
                intro j hj
                simp only [List.mem_cons, not_or]
                constructor
                · intro hji
                  subst hji
                  exact hino (List.mem_append.mpr (Or.inr hj))
                · exact hdj j (by simp [inosOf, List.mem_append, hj])
              obtain ⟨h1, h2⟩ := ih (i :: s) hrest hdj'
              constructor
              · simp [enumerate, check_inode, hins, dirMask, h1]
              · intro j
                have := h2 j
                simp only [enumerate, check_inode, if_neg hins] at *
                simp only [levelInos, List.mem_cons]
                rw [this]
                simp [List.mem_cons]
                tauto

theorem filesOf_sizes_ok (entries : List (Option FSNode))
    (h : sizesOk entries = true) : ∀ f ∈ filesOf entries, f.2 ≠ none := by
  induction entries with
  | nil => intro f hf; cases hf
  | cons x rest ih =>
      cases x with
      | none =>
          simp only [sizesOk] at h
          simp only [filesOf]
          exact ih h
      | some n =>
          cases n with
          | symlink =>
              simp only [sizesOk] at h
              simp only [filesOf]
              exact ih h
          | dir a i es =>
              simp only [sizesOk, Bool.and_eq_true] at h
              simp only [filesOf]
              exact ih h.2
          | file a b =>
              cases b with
              | none => simp [sizesOk] at h
              | some v =>
                  intro f hf
                  simp only [filesOf, List.mem_cons] at hf
                  rcases hf with rfl | hf
                  · simp
                  · exact ih (by simpa [sizesOk] using h) f hf

theorem processFiles_sum (files : List (Option (List Nat) × Option Nat))
    (h : ∀ f ∈ files, f.2 ≠ none) :
    ∃ hs, processFiles files =
      some (hs, (files.map (fun f => f.2.getD 0)).sum) := by
  induction files with
  | nil => exact ⟨[], rfl⟩
  | cons f rest ih =>
      obtain ⟨n, sz⟩ := f
      cases sz with
      | none =>
          exact absurd rfl (h (n, none) (List.mem_cons_self _ _))
      | some v =>
          obtain ⟨hs, hrec⟩ := ih (fun g hg => h g (List.mem_cons_of_mem _ hg))
          refine ⟨hash_file_metadata n v :: hs, ?_⟩
          simp [processFiles, hrec]

theorem totalCount_split (entries : List (Option FSNode)) :
    totalCount entries = (filesOf entries).length + kidsCount entries := by
  induction entries with
  | nil => simp [totalCount, filesOf, kidsCount]
  | cons x rest ih =>
      cases x with
      | none => simpa [totalCount, filesOf, kidsCount] using ih
      | some n =>
          cases n with
          | file a b =>
              simp only [totalCount, filesOf, kidsCount, List.length_cons, ih]
              omega
          | symlink => simpa [totalCount, filesOf, kidsCount] using ih
          | dir a i es =>
              simp only [totalCount, filesOf, kidsCount, ih]
              omega

theorem totalSize_split (entries : List (Option FSNode)) :
    totalSize entries =
      ((filesOf entries).map (fun f => f.2.getD 0)).sum + kidsSize entries := by
  induction entries with
  | nil => simp [totalSize, filesOf, kidsSize]
  | cons x rest ih =>
      cases x with
      | none => simpa [totalSize, filesOf, kidsSize] using ih
      | some n =>
          cases n with
          | file a b =>
              cases b with
              | none =>
                  simp only [totalSize, filesOf, kidsSize, List.map_cons, List.sum_cons, ih]
                  simp
              | some v =>
                  simp only [totalSize, filesOf, kidsSize, List.map_cons, List.sum_cons, ih]
                  simp
                  omega
          | symlink => simpa [totalSize, filesOf, kidsSize] using ih
          | dir a i es =>
              simp only [totalSize, filesOf, kidsSize, ih]
              omega

theorem sumDisk_aux (l : List DirectoryData) (a : Nat) :
    l.foldl (fun acc d => acc + d.disk_size) a = a + sumDisk l := by
  induction l generalizing a with
  | nil => simp [sumDisk]
  | cons d ds ih =>
      simp only [sumDisk, List.foldl_cons] at *
      rw [ih (a + d.disk_size), ih (0 + d.disk_size)]
      omega

theorem sumDesc_cons (d : DirectoryData) (ds : List DirectoryData) :
    sumDesc (d :: ds) = 1 + d.descendant_number + sumDesc ds := by
  have h := sumDesc_aux ds (0 + (1 + d.descendant_number))
  calc sumDesc (d :: ds)
      = ds.foldl (fun acc e => acc + (1 + e.descendant_number))
          (0 + (1 + d.descendant_number)) := rfl
    _ = (0 + (1 + d.descendant_number)) + sumDesc ds := h
    _ = 1 + d.descendant_number + sumDesc ds := by omega

theorem sumDisk_cons (d : DirectoryData) (ds : List DirectoryData) :
    sumDisk (d :: ds) = d.disk_size + sumDisk ds := by
  have h := sumDisk_aux ds (0 + d.disk_size)
  calc sumDisk (d :: ds)
      = ds.foldl (fun acc e => acc + e.disk_size) (0 + d.disk_size) := rfl
    _ = (0 + d.disk_size) + sumDisk ds := h
    _ = d.disk_size + sumDisk ds := by omega



/-- Claim C5: on a tree whose sub-directory inodes are pairwise distinct
and fresh (no inode-guard pruning applies, so every sub-directory entry is
retained) and whose file metadata is readable, the walk succeeds and the
returned record's `descendant_number` is exactly the total number of files
and sub-directories transitively below the directory (the sum over retained
direct sub-directories of `1 +` their count plus 1 per direct file), and
its `disk_size` is exactly the sum of the sizes of all transitively
contained files, directory entries contributing 0. -/
theorem claim_C5 :
    ∀ (path : List (List Nat)) (entries : List (Option FSNode)) (map : FIndex)
      (inodes : List Nat),
      (inosOf entries).Nodup → (∀ j ∈ inosOf entries, j ∉ inodes) →
      sizesOk entries = true →
      ∃ dd m' i', crawl_directory path entries map inodes = some (dd, m', i') ∧
        dd.descendant_number = totalCount entries ∧
        dd.disk_size = totalSize entries ∧
        ∀ j ∈ i', j ∈ inodes ∨ j ∈ inosOf entries := by
  refine crawl_directory.induct
    (fun path entries map inodes =>
      (inosOf entries).Nodup → (∀ j ∈ inosOf entries, j ∉ inodes) →
      sizesOk entries = true →
      ∃ dd m' i', crawl_directory path entries map inodes = some (dd, m', i') ∧
        dd.descendant_number = totalCount entries ∧
        dd.disk_size = totalSize entries ∧
        ∀ j ∈ i', j ∈ inodes ∨ j ∈ inosOf entries)
    (fun path entries keeps map inodes =>
      keeps = dirMask entries → (subInos entries).Nodup →
      (∀ j ∈ subInos entries, j ∉ inodes) → sizesOk entries = true →
      ∃ subs m' i', crawlKids path entries keeps map inodes = some (subs, m', i') ∧
        sumDesc subs = kidsCount entries ∧ sumDisk subs = kidsSize entries ∧
        ∀ j ∈ i', j ∈ inodes ∨ j ∈ subInos entries)
    ?_ ?_ ?_ ?_ ?_ ?_ ?_ ?_ ?_
  · -- crawlKids returned none: impossible under the hypotheses
    intro path entries map inodes
    dsimp only
    intro hk ih2 hnd hdj hsz
    have hf := enumerate_fresh entries inodes hnd hdj
    have hsub : ∀ j ∈ subInos entries, j ∉ (enumerate entries inodes).inodes := by
      intro j hj hmem
      rcases (hf.2 j).mp hmem with hin | hlev
      · exact hdj j (mem_subInos_inosOf entries j hj) hin
      · exact level_sub_disjoint entries hnd j hlev hj
    obtain ⟨subs, m', i', hck, _⟩ :=
      ih2 hf.1 (subInos_nodup entries hnd) hsub hsz
    rw [hk] at hck
    cases hck
  · -- processFiles returned none: impossible under the hypotheses
    intro path entries map inodes
    dsimp only
    intro subs map1 inodes1 hk hp ih2 hnd hdj hsz
    obtain ⟨hsl, hpf⟩ := processFiles_sum (filesOf entries) (filesOf_sizes_ok entries hsz)
    rw [enumerate_files] at hp
    rw [hp] at hpf
    exact Option.noConfusion hpf
  · -- the successful case
    intro path entries map inodes
    dsimp only
    intro subs map1 inodes1 hk hs total hp ih2 hnd hdj hsz
    have hf := enumerate_fresh entries inodes hnd hdj
    have hsub : ∀ j ∈ subInos entries, j ∉ (enumerate entries inodes).inodes := by
      intro j hj hmem
      rcases (hf.2 j).mp hmem with hin | hlev
      · exact hdj j (mem_subInos_inosOf entries j hj) hin
      · exact level_sub_disjoint entries hnd j hlev hj
    obtain ⟨subs', m2', i2', hck, hsdesc, hsdisk, hbound⟩ :=
      ih2 hf.1 (subInos_nodup entries hnd) hsub hsz
    rw [hk] at hck
    simp only [Option.some.injEq, Prod.mk.injEq] at hck
    obtain ⟨he1, he2, he3⟩ := hck
    subst he1; subst he2; subst he3
    obtain ⟨hsl, hpsum⟩ := processFiles_sum (filesOf entries) (filesOf_sizes_ok entries hsz)
    have hp2 := hp
    rw [enumerate_files] at hp2
    rw [hp2] at hpsum
    simp only [Option.some.injEq, Prod.mk.injEq] at hpsum
    obtain ⟨hq1, hq2⟩ := hpsum
    refine ⟨⟨path, subs.map DirectoryData.hash ++ hs,
        (enumerate entries inodes).files.length + sumDesc subs,
        sumDisk subs + total⟩,
      mapInsert map1
        (DirectoryData.hash ⟨path, subs.map DirectoryData.hash ++ hs,
          (enumerate entries inodes).files.length + sumDesc subs,
          sumDisk subs + total⟩)
        ⟨path, subs.map DirectoryData.hash ++ hs,
          (enumerate entries inodes).files.length + sumDesc subs,
          sumDisk subs + total⟩,
      inodes1, ?_, ?_, ?_, ?_⟩
    · simp only [crawl_directory]
      rw [hk]
      dsimp only
      rw [hp]
    · show (enumerate entries inodes).files.length + sumDesc subs = totalCount entries
      rw [enumerate_files, hsdesc, totalCount_split]
    · show sumDisk subs + total = totalSize entries
      rw [hsdisk, hq2, totalSize_split]
      omega
    · intro j hj
      rcases hbound j hj with hin | hsb
      · rcases (hf.2 j).mp hin with h1 | h2
        · exact Or.inl h1
        · exact Or.inr (mem_levelInos_inosOf entries j h2)
      · exact Or.inr (mem_subInos_inosOf entries j hsb)
  · -- crawlKids on the empty listing
    intro path keeps map inodes _ _ _ _
    refine ⟨[], map, inodes, ?_, ?_, ?_, ?_⟩
    · simp [crawlKids]
    · simp [sumDesc, kidsCount]
    · simp [sumDisk, kidsSize]
    · intro j hj
      exact Or.inl hj
  · -- kept dir entry, recursion failed: impossible
    intro path map inodes name ino es rest ks hc ih1 hkeq hnd hdj hsz
    simp only [subInos, List.nodup_append] at hnd
    obtain ⟨hes, hsrest, hdisjb⟩ := hnd
    simp only [sizesOk, Bool.and_eq_true] at hsz
    obtain ⟨dd', m', i', hcd, _⟩ := ih1 hes
      (fun j hj => hdj j (by simp [subInos, List.mem_append, hj])) hsz.1
    rw [hc] at hcd
    cases hcd
  · -- kept dir entry succeeded, tail failed: impossible
    intro path map inodes name ino es rest ks dd map1 inodes1 hc hk ih1 ih2
      hkeq hnd hdj hsz
    simp only [subInos, List.nodup_append] at hnd
    obtain ⟨hes, hsrest, hdisjb⟩ := hnd
    simp only [sizesOk, Bool.and_eq_true] at hsz
    simp only [dirMask, List.map_cons, List.cons.injEq] at hkeq
    obtain ⟨dd', m', i', hcd, hdesc1, hdisk1, hbound1⟩ := ih1 hes
      (fun j hj => hdj j (by simp [subInos, List.mem_append, hj])) hsz.1
    rw [hc] at hcd
    simp only [Option.some.injEq, Prod.mk.injEq] at hcd
    obtain ⟨hx1, hx2, hx3⟩ := hcd
    subst hx1; subst hx2; subst hx3
    have hdj2 : ∀ j ∈ subInos rest, j ∉ inodes1 := by
      intro j hj hmem
      rcases hbound1 j hmem with h1 | h2
      · exact hdj j (by simp [subInos, List.mem_append, hj]) h1
      · exact hdisjb h2 hj
    obtain ⟨subs2, m2', i2', hck2, _⟩ := ih2 hkeq.2 hsrest hdj2 hsz.2
    rw [hk] at hck2
    cases hck2
  · -- kept dir entry and tail both succeeded
    intro path map inodes name ino es rest ks dd map1 inodes1 hc subs map2 inodes2 hk
      ih1 ih2 hkeq hnd hdj hsz
    simp only [subInos, List.nodup_append] at hnd
    obtain ⟨hes, hsrest, hdisjb⟩ := hnd
    simp only [sizesOk, Bool.and_eq_true] at hsz
    simp only [dirMask, List.map_cons, List.cons.injEq] at hkeq
    obtain ⟨dd', m', i', hcd, hdesc1, hdisk1, hbound1⟩ := ih1 hes
      (fun j hj => hdj j (by simp [subInos, List.mem_append, hj])) hsz.1
    rw [hc] at hcd
    simp only [Option.some.injEq, Prod.mk.injEq] at hcd
    obtain ⟨hx1, hx2, hx3⟩ := hcd
    subst hx1; subst hx2; subst hx3
    have hdj2 : ∀ j ∈ subInos rest, j ∉ inodes1 := by
      intro j hj hmem
      rcases hbound1 j hmem with h1 | h2
      · exact hdj j (by simp [subInos, List.mem_append, hj]) h1
      · exact hdisjb h2 hj
    obtain ⟨subs2, m2', i2', hck2, hdesc2, hdisk2, hbound2⟩ :=
      ih2 hkeq.2 hsrest hdj2 hsz.2
    rw [hk] at hck2
    simp only [Option.some.injEq, Prod.mk.injEq] at hck2
    obtain ⟨hy1, hy2, hy3⟩ := hck2
    subst hy1; subst hy2; subst hy3
    refine ⟨dd :: subs, map2, inodes2, ?_, ?_, ?_, ?_⟩
    · simp only [crawlKids]
      rw [hc]
      dsimp only
      rw [hk]
    · rw [sumDesc_cons, hdesc1, hdesc2]
      simp only [kidsCount]
    · rw [sumDisk_cons, hdisk1, hdisk2]
      simp only [kidsSize]
    · intro j hj
      rcases hbound2 j hj with h1 | h2
      · rcases hbound1 j h1 with h3 | h4
        · exact Or.inl h3
        · exact Or.inr (by simp [subInos, List.mem_append, h4])
      · exact Or.inr (by simp [subInos, List.mem_append, h2])
  · -- an entry that is not a kept directory is skipped
    intro path map inodes head rest k ks hne ih hkeq hnd hdj hsz
    cases head with
    | none =>
        simp only [dirMask, List.map_cons, List.cons.injEq] at hkeq
        obtain ⟨hk0, hkrest⟩ := hkeq
        subst hk0
        simp only [subInos] at hnd hdj
        simp only [sizesOk] at hsz
        obtain ⟨subs, m', i', hck, hd1, hd2, hb⟩ := ih hkrest hnd hdj hsz
        refine ⟨subs, m', i', ?_, ?_, ?_, ?_⟩
        · rw [crawlKids_skip]
          exact hck
        · simpa [kidsCount] using hd1
        · simpa [kidsSize] using hd2
        · intro j hj
          simpa [subInos] using hb j hj
    | some n =>
        cases n with
        | file a b =>
            simp only [dirMask, List.map_cons, List.cons.injEq] at hkeq
            obtain ⟨hk0, hkrest⟩ := hkeq
            subst hk0
            simp only [subInos] at hnd hdj
            cases b with
            | none => simp [sizesOk] at hsz
            | some v =>
                simp only [sizesOk] at hsz
                obtain ⟨subs, m', i', hck, hd1, hd2, hb⟩ := ih hkrest hnd hdj hsz
                refine ⟨subs, m', i', ?_, ?_, ?_, ?_⟩
                · rw [crawlKids_skip]
                  exact hck
                · simpa [kidsCount] using hd1
                · simpa [kidsSize] using hd2
                · intro j hj
                  simpa [subInos] using hb j hj
        | symlink =>
            simp only [dirMask, List.map_cons, List.cons.injEq] at hkeq
            obtain ⟨hk0, hkrest⟩ := hkeq
            subst hk0
            simp only [subInos] at hnd hdj
            simp only [sizesOk] at hsz
            obtain ⟨subs, m', i', hck, hd1, hd2, hb⟩ := ih hkrest hnd hdj hsz
            refine ⟨subs, m', i', ?_, ?_, ?_, ?_⟩
            · rw [crawlKids_skip]
              exact hck
            · simpa [kidsCount] using hd1
            · simpa [kidsSize] using hd2
            · intro j hj
              simpa [subInos] using hb j hj
        | dir nm ino es =>
            simp only [dirMask, List.map_cons, List.cons.injEq] at hkeq
            exact absurd hkeq.1 (fun hh => hne nm ino es rfl hh)
  · -- keeps exhausted before the entries: impossible with aligned keeps
    intro path map inodes head rest ih hkeq _ _ _
    simp [dirMask] at hkeq

theorem claim_C5_witness :
    (inosOf [some (.dir [65] 1 [some (.file (some [102]) (some 5))]),
        some (.file (some [103]) (some 2))]).Nodup ∧
    (∀ j ∈ inosOf [some (.dir [65] 1 [some (.file (some [102]) (some 5))]),
        some (.file (some [103]) (some 2))], j ∉ ([] : List Nat)) ∧
    sizesOk [some (.dir [65] 1 [some (.file (some [102]) (some 5))]),
        some (.file (some [103]) (some 2))] = true ∧
    ∃ dd m' i',
      crawl_directory [[82]]
          [some (.dir [65] 1 [some (.file (some [102]) (some 5))]),
           some (.file (some [103]) (some 2))] [] [] = some (dd, m', i') ∧
        dd.descendant_number =
          totalCount [some (.dir [65] 1 [some (.file (some [102]) (some 5))]),
            some (.file (some [103]) (some 2))] ∧
        dd.disk_size =
          totalSize [some (.dir [65] 1 [some (.file (some [102]) (some 5))]),
            some (.file (some [103]) (some 2))] ∧
        ∀ j ∈ i', j ∈ ([] : List Nat) ∨
          j ∈ inosOf [some (.dir [65] 1 [some (.file (some [102]) (some 5))]),
            some (.file (some [103]) (some 2))] := by
  have h1 : (inosOf [some (.dir [65] 1 [some (.file (some [102]) (some 5))]),
      some (.file (some [103]) (some 2))]).Nodup := by
    simp [inosOf]
  have h2 : ∀ j ∈ inosOf [some (.dir [65] 1 [some (.file (some [102]) (some 5))]),
      some (.file (some [103]) (some 2))], j ∉ ([] : List Nat) := by
    intro j _ hj
    cases hj
  have h3 : sizesOk [some (.dir [65] 1 [some (.file (some [102]) (some 5))]),
      some (.file (some [103]) (some 2))] = true := by
    simp [sizesOk]
  exact ⟨h1, h2, h3, claim_C5 [[82]] _ [] [] h1 h2 h3⟩


end DupDirFinder
